/-
Verification of the qci-data repository notebooks.

The development shallowly embeds the two source files:

* `learn/tutorials/Set-Partition-Tutorial.ipynb` — the set-partitioning
  QUBO encoder (`A`, `b`, `J`, `h`, `offset`, `P`, `objective`, `Q`) and
  the result interpreter `check_result`.
* the Dirac-3 quick tutorial (`sample_hamiltonian`, `get_results`).

Matrices of floats are modelled over `ℚ` (the claims here are exact
algebraic identities, never rounding facts).  Python dicts returned by the
remote service are modelled as structures with `Option` fields, where
`none` stands for an absent key.
-/
import Mathlib

namespace QciData

open Matrix

variable {α : Type} [DecidableEq α]

/-- Union of a list of finite sets.  Models the accumulation
`X = set(); for S_i in S: X = X.union(S_i)` from the notebook (and the
`testX` accumulation inside `check_result`). -/
def listUnion : List (Finset α) → Finset α
  | [] => ∅
  | Si :: rest => Si ∪ listUnion rest

/-- The sub-list of sets picked by a sample: inside `check_result` the loop
`for i in range(len(S)): if sample[i] == 1:` visits exactly these sets, in
order.  A sample is a list of numbers and a set is selected when its entry
equals `1`, exactly as the Python comparison `sample[i] == 1`. -/
def selectedList : List (Finset α) → List ℕ → List (Finset α)
  | Si :: rest, v :: vs => (if v = 1 then [Si] else []) ++ selectedList rest vs
  | _, _ => []

/-- `testX` from `check_result`: the union of the selected sets. -/
def testX (S : List (Finset α)) (s : List ℕ) : Finset α :=
  listUnion (selectedList S s)

/-- Length of the `members` list from `check_result`: each selected set
`S_i` contributes `len(S_i)` elements via `members.extend(S[i])`. -/
def membersLen (S : List (Finset α)) (s : List ℕ) : ℕ :=
  ((selectedList S s).map Finset.card).sum

/-- The percentage printed by `check_result` as
`f"Set coverage {100*len(testX)/len(X)}%"`. -/
def coveragePct (X : Finset α) (S : List (Finset α)) (s : List ℕ) : ℚ :=
  100 * (testX S s).card / X.card

/-- The boolean printed by `check_result` as
`f"Partition found: {len(testX)==len(members)}"`. -/
def partitionFound (S : List (Finset α)) (s : List ℕ) : Bool :=
  (testX S s).card == membersLen S s

/-- How many selected sets contain `x` (the number of times `x` occurs in
the `members` list of `check_result`, since the sets are duplicate-free). -/
def cnt (S : List (Finset α)) (s : List ℕ) (x : α) : ℕ :=
  (selectedList S s).countP (fun B => decide (x ∈ B))

theorem mem_listUnion {x : α} {L : List (Finset α)} :
    x ∈ listUnion L ↔ ∃ B ∈ L, x ∈ B := by
  induction L with
  | nil => simp [listUnion]
  | cons B rest ih => simp [listUnion, ih]

theorem listUnion_card_le (L : List (Finset α)) :
    (listUnion L).card ≤ (L.map Finset.card).sum := by
  induction L with
  | nil => simp [listUnion]
  | cons B rest ih =>
      simp only [listUnion, List.map_cons, List.sum_cons]
      exact le_trans (Finset.card_union_le _ _) (Nat.add_le_add_left ih _)

theorem disjoint_listUnion_right (A : Finset α) (L : List (Finset α)) :
    Disjoint A (listUnion L) ↔ ∀ B ∈ L, Disjoint A B := by
  induction L with
  | nil => simp [listUnion]
  | cons B rest ih => simp [listUnion, Finset.disjoint_union_right, ih]

theorem listUnion_card_eq_sum_iff (L : List (Finset α)) :
    (listUnion L).card = (L.map Finset.card).sum ↔ L.Pairwise Disjoint := by
  induction L with
  | nil => simp [listUnion]
  | cons B rest ih =>
      simp only [listUnion, List.map_cons, List.sum_cons, List.pairwise_cons]
      constructor
      · intro h
        have h1 : (B ∪ listUnion rest).card ≤ B.card + (listUnion rest).card :=
          Finset.card_union_le _ _
        have h2 : (listUnion rest).card ≤ (rest.map Finset.card).sum :=
          listUnion_card_le rest
        have hrest : (listUnion rest).card = (rest.map Finset.card).sum := by omega
        have hU : (B ∪ listUnion rest).card = B.card + (listUnion rest).card := by omega
        have hd : Disjoint B (listUnion rest) := by
          have := Finset.card_union_add_card_inter B (listUnion rest)
          have hzero : (B ∩ listUnion rest).card = 0 := by omega
          have : B ∩ listUnion rest = ∅ := Finset.card_eq_zero.mp hzero
          exact Finset.disjoint_iff_inter_eq_empty.mpr this
        exact ⟨(disjoint_listUnion_right B rest).mp hd, ih.mp hrest⟩
      · rintro ⟨hd, hpw⟩
        have hdu : Disjoint B (listUnion rest) :=
          (disjoint_listUnion_right B rest).mpr hd
        rw [Finset.card_union_of_disjoint hdu, ih.mpr hpw]

omit [DecidableEq α] in
theorem selectedList_mem_of_mem {S : List (Finset α)} {s : List ℕ}
    {B : Finset α} (h : B ∈ selectedList S s) : B ∈ S := by
  induction S generalizing s with
  | nil => simp [selectedList] at h
  | cons Si rest ih =>
      cases s with
      | nil => simp [selectedList] at h
      | cons v vs =>
          simp only [selectedList, List.mem_append] at h
          rcases h with h | h
          · by_cases hv : v = 1
            · simp [hv] at h
              simp [h]
            · simp [hv] at h
          · exact List.mem_cons_of_mem _ (ih h)

theorem mem_testX {S : List (Finset α)} {s : List ℕ} {x : α} :
    x ∈ testX S s ↔ 0 < cnt S s x := by
  rw [testX, cnt, mem_listUnion, List.countP_pos_iff]
  simp

theorem testX_subset_listUnion (S : List (Finset α)) (s : List ℕ) :
    testX S s ⊆ listUnion S := by
  intro x hx
  rcases mem_listUnion.mp hx with ⟨B, hB, hxB⟩
  exact mem_listUnion.mpr ⟨B, selectedList_mem_of_mem hB, hxB⟩

theorem sum_countP_mem_eq_sum_card (X : Finset α) :
    ∀ L : List (Finset α), (∀ B ∈ L, B ⊆ X) →
      (∑ x ∈ X, L.countP (fun B => decide (x ∈ B))) = (L.map Finset.card).sum := by
  intro L
  induction L with
  | nil => simp
  | cons B rest ih =>
      intro hsub
      have hBX : B ⊆ X := hsub B (by simp)
      have hrest : ∀ C ∈ rest, C ⊆ X := fun C hC => hsub C (by simp [hC])
      simp only [List.countP_cons, List.map_cons, List.sum_cons]
      rw [Finset.sum_add_distrib, ih hrest]
      have hcard : (∑ x ∈ X, if decide (x ∈ B) = true then 1 else 0) = B.card := by
        have h1 : (X.filter (fun x => x ∈ B)).card
            = ∑ x ∈ X, if x ∈ B then 1 else 0 := Finset.card_filter _ _
        have h2 : X.filter (fun x => x ∈ B) = B := by
          rw [Finset.filter_mem_eq_inter]
          exact Finset.inter_eq_right.mpr hBX
        simp only [decide_eq_true_eq]
        rw [← h1, h2]
      omega

theorem sum_cnt_eq_membersLen {X : Finset α} (S : List (Finset α)) (s : List ℕ)
    (hsub : ∀ B ∈ selectedList S s, B ⊆ X) :
    (∑ x ∈ X, cnt S s x) = membersLen S s := by
  unfold cnt membersLen
  exact sum_countP_mem_eq_sum_card X (selectedList S s) hsub

theorem coveragePct_eq_100_iff {X : Finset α} (S : List (Finset α)) (s : List ℕ)
    (hne : X.Nonempty) :
    coveragePct X S s = 100 ↔ (testX S s).card = X.card := by
  have hc : (X.card : ℚ) ≠ 0 := by
    have h0 : X.card ≠ 0 := Finset.card_ne_zero.mpr hne
    exact_mod_cast h0
  rw [coveragePct, div_eq_iff hc]
  constructor
  · intro h
    have : (100 : ℚ) * (testX S s).card = 100 * X.card := by linarith
    have := mul_left_cancel₀ (by norm_num : (100 : ℚ) ≠ 0) this
    exact_mod_cast this
  · intro h
    rw [h]

theorem testX_eq_filter {X : Finset α} (S : List (Finset α)) (s : List ℕ)
    (hX : X = listUnion S) :
    testX S s = X.filter (fun x => 0 < cnt S s x) := by
  ext x
  simp only [Finset.mem_filter, mem_testX]
  constructor
  · intro h
    exact ⟨hX ▸ testX_subset_listUnion S s (mem_testX.mpr h), h⟩
  · exact fun h => h.2

/-- C1. `check_result` prints `Set coverage 100.0%` and `Partition found:
True` for a sample `s` (of length `len(S)`, entries in `{0,1}`) if and only
if the sets selected by `s` form a set partitioning of the universe
`X = ⋃ᵢ Sᵢ`: every element of `X` lies in exactly one selected set. -/
theorem checkResult_prints_success_iff_exact_cover
    (S : List (Finset α)) (X : Finset α) (s : List ℕ)
    (hlen : s.length = S.length) (hbin : ∀ v ∈ s, v = 0 ∨ v = 1)
    (hX : X = listUnion S) (hne : X.Nonempty) :
    (coveragePct X S s = 100 ∧ partitionFound S s = true) ↔
      ∀ x ∈ X, cnt S s x = 1 := by
  have hsub : testX S s ⊆ X := hX ▸ testX_subset_listUnion S s
  have hsumc : (∑ x ∈ X, cnt S s x) = membersLen S s := by
    refine sum_cnt_eq_membersLen S s fun B hB => ?_
    intro x hx
    exact hX ▸ mem_listUnion.mpr ⟨B, selectedList_mem_of_mem hB, hx⟩
  rw [coveragePct_eq_100_iff S s hne, partitionFound, beq_iff_eq]
  constructor
  · rintro ⟨hcov, hpart⟩
    have hTX : testX S s = X := Finset.eq_of_subset_of_card_le hsub (le_of_eq hcov.symm)
    have hpos : ∀ x ∈ X, 0 < cnt S s x := fun x hx => mem_testX.mp (hTX ▸ hx)
    have hsum : (∑ x ∈ X, cnt S s x) = X.card := by
      rw [hsumc, ← hpart, hcov]
    by_contra hcon
    push_neg at hcon
    rcases hcon with ⟨x0, hx0, hne1⟩
    have h2 : 2 ≤ cnt S s x0 := by
      have := hpos x0 hx0
      omega
    have hlt : (∑ x ∈ X, (1 : ℕ)) < ∑ x ∈ X, cnt S s x := by
      refine Finset.sum_lt_sum (fun i hi => hpos i hi) ⟨x0, hx0, by omega⟩
    simp only [Finset.sum_const, smul_eq_mul, mul_one] at hlt
    omega
  · intro hone
    have hTX : testX S s = X := by
      rw [testX_eq_filter S s hX]
      apply Finset.filter_true_of_mem
      intro x hx
      rw [hone x hx]
      norm_num
    refine ⟨by rw [hTX], ?_⟩
    rw [← hsumc, hTX]
    have : (∑ x ∈ X, cnt S s x) = ∑ x ∈ X, 1 := Finset.sum_congr rfl hone
    rw [this]
    simp

/-- The nine concrete sets of the Set-Partition tutorial, with the letters
A–F encoded as `0`–`5` in `Fin 6`. -/
def exS : List (Finset (Fin 6)) :=
  [{0, 1, 2}, {3, 4, 5}, {0, 5}, {1, 4}, {2, 3}, {0}, {1}, {2, 3, 4}, {1, 2}]

/-- The sample `S_2 S_6 S_7` reported by the tutorial output. -/
def exSample : List ℕ := [0, 0, 1, 0, 0, 0, 1, 1, 0]

theorem checkResult_prints_success_iff_exact_cover_witness :
    coveragePct (listUnion exS) exS exSample = 100 ∧
      partitionFound exS exSample = true :=
  (checkResult_prints_success_iff_exact_cover exS (listUnion exS) exSample
    (by decide) (by decide) rfl (by decide)).mpr (by decide)

omit [DecidableEq α] in
theorem selectedList_replicate_zero (S : List (Finset α)) :
    selectedList S (List.replicate S.length 0) = [] := by
  induction S with
  | nil => rfl
  | cons Si rest ih =>
      simp only [List.length_cons, List.replicate_succ, selectedList]
      simpa using ih

/-- C9. `check_result` prints `Partition found: True` exactly when the
selected sets are pairwise disjoint, regardless of coverage; in particular
the all-zeros sample gets `Set coverage 0.0%` together with
`Partition found: True`, so the partition line alone does not certify a set
partitioning. -/
theorem partitionFound_iff_pairwise_disjoint
    (S : List (Finset α)) (X : Finset α) (s : List ℕ) (hne : X.Nonempty) :
    (partitionFound S s = true ↔ (selectedList S s).Pairwise Disjoint) ∧
      (coveragePct X S (List.replicate S.length 0) = 0 ∧
        partitionFound S (List.replicate S.length 0) = true) := by
  refine ⟨?_, ?_, ?_⟩
  · rw [partitionFound, beq_iff_eq, testX, membersLen]
    exact listUnion_card_eq_sum_iff (selectedList S s)
  · rw [coveragePct, testX, selectedList_replicate_zero]
    simp [listUnion]
  · rw [partitionFound, beq_iff_eq, testX, membersLen, selectedList_replicate_zero]
    simp [listUnion]

theorem partitionFound_iff_pairwise_disjoint_witness :
    (partitionFound exS exSample = true ↔
        (selectedList exS exSample).Pairwise Disjoint) ∧
      (coveragePct (listUnion exS) exS (List.replicate exS.length 0) = 0 ∧
        partitionFound exS (List.replicate exS.length 0) = true) :=
  partitionFound_iff_pairwise_disjoint exS (listUnion exS) exSample (by decide)

/-- The constraint rows built by the notebook:
`A = []; for x in X: A.append([1 if x in S_i else 0 for S_i in S])`.
The list `xs` is the iteration order of the Python set `X`. -/
def buildA (xs : List α) (S : List (Finset α)) : List (List ℚ) :=
  xs.map (fun x => S.map (fun Si => if x ∈ Si then (1 : ℚ) else 0))

/-- `b = np.ones((A.shape[0],))` as a list. -/
def buildB (m : ℕ) : List ℚ :=
  List.replicate m 1

/-- The matrix `np.array(A)`: entry `(i, j)` of the row list `buildA`. -/
def constraintMatrix (xs : List α) (S : List (Finset α)) :
    Matrix (Fin xs.length) (Fin S.length) ℚ :=
  Matrix.of fun i j => ((buildA xs S).getD i.val []).getD j.val 0

/-- The vector `b` seen as a function, reading entries of `buildB`. -/
def bVec (m : ℕ) : Fin m → ℚ :=
  fun i => (buildB m).getD i.val 0

theorem buildA_entry (xs : List α) (S : List (Finset α))
    (i : Fin xs.length) (j : Fin S.length) :
    ((buildA xs S).getD i.val []).getD j.val 0
      = if xs.get i ∈ S.get j then 1 else 0 := by
  have hi : i.val < (buildA xs S).length := by
    simpa [buildA] using i.isLt
  rw [List.getD_eq_getElem _ _ hi]
  have hrow : (buildA xs S)[i.val]
      = S.map (fun Si => if xs.get i ∈ Si then (1 : ℚ) else 0) := by
    simp [buildA, List.getElem_map, List.get_eq_getElem]
  rw [hrow]
  have hj : j.val < (S.map (fun Si => if xs.get i ∈ Si then (1 : ℚ) else 0)).length := by
    simpa using j.isLt
  rw [List.getD_eq_getElem _ _ hj]
  simp [List.getElem_map, List.get_eq_getElem]

theorem constraintMatrix_apply (xs : List α) (S : List (Finset α))
    (i : Fin xs.length) (j : Fin S.length) :
    constraintMatrix xs S i j = if xs.get i ∈ S.get j then 1 else 0 :=
  buildA_entry xs S i j

theorem bVec_apply (m : ℕ) (i : Fin m) : bVec m i = 1 := by
  have hi : i.val < (buildB m).length := by simpa [buildB] using i.isLt
  rw [bVec, List.getD_eq_getElem _ _ hi]
  simp [buildB]

/-- C7. The encoder builds `A` with one row per element of the universe `X`
(enumerated by `xs`) and one column per set, the entry being the membership
indicator, and `b` as the all-ones vector of length `|X|`. -/
theorem encoder_builds_membership_system (xs : List α) (S : List (Finset α)) :
    (buildA xs S).length = xs.length ∧
      (∀ i : Fin xs.length, ((buildA xs S).getD i.val []).length = S.length) ∧
      (∀ (i : Fin xs.length) (j : Fin S.length),
        ((buildA xs S).getD i.val []).getD j.val 0
          = if xs.get i ∈ S.get j then 1 else 0) ∧
      (buildB xs.length).length = xs.length ∧
      (∀ i : Fin xs.length, (buildB xs.length).getD i.val 0 = 1) := by
  refine ⟨by simp [buildA], ?_, buildA_entry xs S, by simp [buildB], bVec_apply xs.length⟩
  intro i
  have hi : i.val < (buildA xs S).length := by simpa [buildA] using i.isLt
  rw [List.getD_eq_getElem _ _ hi]
  simp [buildA]

/-- `J = A.T@A` from the notebook. -/
def gramJ (xs : List α) (S : List (Finset α)) :
    Matrix (Fin S.length) (Fin S.length) ℚ :=
  (constraintMatrix xs S)ᵀ * constraintMatrix xs S

/-- `h = -2 * b.T@A` from the notebook (the later reshape to a column does
not change the entries). -/
def hLin (xs : List α) (S : List (Finset α)) : Fin S.length → ℚ :=
  fun j => -2 * Matrix.vecMul (bVec xs.length) (constraintMatrix xs S) j

/-- `offset = b.T@b` from the notebook. -/
def offsetVal (m : ℕ) : ℚ :=
  dotProduct (bVec m) (bVec m)

/-- The penalty value `s^T J s + h . s + offset` of the markdown formula
`P(s) = s^T(A^TA)s - (2b^TA)^Ts + b^Tb`. -/
def penaltyVal (xs : List α) (S : List (Finset α)) (s : Fin S.length → ℚ) : ℚ :=
  dotProduct s ((gramJ xs S).mulVec s) + dotProduct (hLin xs S) s
    + offsetVal xs.length

/-- How many sets a rational sample `s` selects (entries equal to `1`)
among those containing `x`. -/
def selCount (S : List (Finset α)) (s : Fin S.length → ℚ) (x : α) : ℕ :=
  (Finset.univ.filter (fun j => s j = 1 ∧ x ∈ S.get j)).card

theorem penaltyVal_eq_residual_sq (xs : List α) (S : List (Finset α))
    (s : Fin S.length → ℚ) :
    penaltyVal xs S s
      = dotProduct ((constraintMatrix xs S).mulVec s - bVec xs.length)
          ((constraintMatrix xs S).mulVec s - bVec xs.length) := by
  have h1 : dotProduct s ((gramJ xs S).mulVec s)
      = dotProduct ((constraintMatrix xs S).mulVec s)
          ((constraintMatrix xs S).mulVec s) := by
    rw [gramJ, ← Matrix.mulVec_mulVec, Matrix.dotProduct_mulVec,
      Matrix.vecMul_transpose]
  have h2 : dotProduct (hLin xs S) s
      = -2 * dotProduct (bVec xs.length) ((constraintMatrix xs S).mulVec s) := by
    have hfun : hLin xs S
        = (-2 : ℚ) • Matrix.vecMul (bVec xs.length) (constraintMatrix xs S) := by
      funext j
      simp [hLin]
    rw [hfun, Matrix.smul_dotProduct, ← Matrix.dotProduct_mulVec]
    simp
  rw [penaltyVal, h1, h2, offsetVal, Matrix.dotProduct_sub, Matrix.sub_dotProduct,
    Matrix.sub_dotProduct,
    Matrix.dotProduct_comm (bVec xs.length) ((constraintMatrix xs S).mulVec s)]
  ring

theorem mulVec_entry_eq_selCount (xs : List α) (S : List (Finset α))
    (s : Fin S.length → ℚ) (hbin : ∀ j, s j = 0 ∨ s j = 1) (i : Fin xs.length) :
    (constraintMatrix xs S).mulVec s i = (selCount S s (xs.get i) : ℚ) := by
  rw [Matrix.mulVec, selCount]
  have hterm : ∀ j : Fin S.length,
      constraintMatrix xs S i j * s j
        = if s j = 1 ∧ xs.get i ∈ S.get j then 1 else 0 := by
    intro j
    rw [constraintMatrix_apply]
    rcases hbin j with h0 | h1
    · rw [h0]
      have : ¬ ((0 : ℚ) = 1 ∧ xs.get i ∈ S.get j) := by
        rintro ⟨h, _⟩
        norm_num at h
      rw [if_neg this, mul_zero]
    · rw [h1]
      by_cases hmem : xs.get i ∈ S.get j
      · rw [if_pos hmem, if_pos ⟨rfl, hmem⟩, mul_one]
      · rw [if_neg hmem, if_neg (fun h => hmem h.2), zero_mul]
  rw [show (dotProduct (constraintMatrix xs S i) s)
      = ∑ j, constraintMatrix xs S i j * s j from rfl]
  rw [Finset.sum_congr rfl fun j _ => hterm j]
  rw [Finset.sum_boole]

/-- C2. With `J = A^T A`, `h = -2 b^T A` and `offset = b^T b` as built by
the encoder, for every vector `s` the quantity `s^T J s + h . s + offset`
equals the squared residual `(As - b).(As - b)`; it vanishes exactly when
`As = b`; and for a binary `s` it vanishes exactly when `s` selects an
exact cover of the universe `X = ⋃ᵢ Sᵢ` (here `xs` enumerates `X`). -/
theorem penalty_identity_and_exact_cover (xs : List α) (S : List (Finset α))
    (hxs : ∀ x : α, x ∈ xs ↔ x ∈ listUnion S) (s : Fin S.length → ℚ) :
    penaltyVal xs S s
        = dotProduct ((constraintMatrix xs S).mulVec s - bVec xs.length)
            ((constraintMatrix xs S).mulVec s - bVec xs.length) ∧
      (penaltyVal xs S s = 0 ↔
        (constraintMatrix xs S).mulVec s = bVec xs.length) ∧
      ((∀ j, s j = 0 ∨ s j = 1) →
        (penaltyVal xs S s = 0 ↔ ∀ x ∈ listUnion S, selCount S s x = 1)) := by
  have hres := penaltyVal_eq_residual_sq xs S s
  have hzero : penaltyVal xs S s = 0 ↔
      (constraintMatrix xs S).mulVec s = bVec xs.length := by
    rw [hres, Matrix.dotProduct_self_eq_zero, sub_eq_zero]
  refine ⟨hres, hzero, fun hbin => ?_⟩
  rw [hzero]
  constructor
  · intro heq x hx
    rcases List.mem_iff_get.mp ((hxs x).mpr hx) with ⟨i, rfl⟩
    have := congrFun heq i
    rw [mulVec_entry_eq_selCount xs S s hbin i, bVec_apply] at this
    exact_mod_cast this
  · intro hone
    funext i
    rw [mulVec_entry_eq_selCount xs S s hbin i, bVec_apply,
      hone (xs.get i) ((hxs (xs.get i)).mp (List.get_mem xs i.val i.isLt)), Nat.cast_one]

/-- The iteration order of the universe `X = {A, ..., F}` encoded over
`Fin 6`. -/
def exXs : List (Fin 6) := [0, 1, 2, 3, 4, 5]

/-- The sample `S_2 S_6 S_7` as a rational vector over the nine sets. -/
def exQs : Fin exS.length → ℚ :=
  fun j => if j.val = 2 ∨ j.val = 6 ∨ j.val = 7 then 1 else 0

theorem penalty_identity_and_exact_cover_witness :
    penaltyVal exXs exS exQs = 0 :=
  ((penalty_identity_and_exact_cover exXs exS (by decide) exQs).2.2
    (by
      intro j
      by_cases h : j.val = 2 ∨ j.val = 6 ∨ j.val = 7
      · right
        simp [exQs, h]
      · left
        simp [exQs, h])).mpr (by decide)

/-- `P = J + np.diag(h.T[0])`: the linear terms folded into the diagonal. -/
def penaltyP (xs : List α) (S : List (Finset α)) :
    Matrix (Fin S.length) (Fin S.length) ℚ :=
  gramJ xs S + Matrix.diagonal (hLin xs S)

theorem diagonal_quad_eq_linear {k : ℕ} (h : Fin k → ℚ) (s : Fin k → ℚ)
    (hbin : ∀ j, s j = 0 ∨ s j = 1) :
    dotProduct s ((Matrix.diagonal h).mulVec s) = dotProduct h s := by
  unfold Matrix.dotProduct
  refine Finset.sum_congr rfl fun j _ => ?_
  rw [Matrix.mulVec_diagonal]
  rcases hbin j with h0 | h1
  · rw [h0]
    ring
  · rw [h1]
    ring

/-- C5. Folding the linear terms into the diagonal preserves the QUBO value
on binary inputs: for binary `s`, `s^T P s = s^T J s + h . s`, so
minimizing `P` over binary vectors is the same as minimizing the
quadratic-plus-linear penalty form. -/
theorem penaltyP_preserves_qubo_value (xs : List α) (S : List (Finset α))
    (s : Fin S.length → ℚ) (hbin : ∀ j, s j = 0 ∨ s j = 1) :
    dotProduct s ((penaltyP xs S).mulVec s)
        = dotProduct s ((gramJ xs S).mulVec s) + dotProduct (hLin xs S) s ∧
      (∀ t : Fin S.length → ℚ, (∀ j, t j = 0 ∨ t j = 1) →
        (dotProduct s ((penaltyP xs S).mulVec s)
            ≤ dotProduct t ((penaltyP xs S).mulVec t) ↔
          dotProduct s ((gramJ xs S).mulVec s) + dotProduct (hLin xs S) s
            ≤ dotProduct t ((gramJ xs S).mulVec t)
              + dotProduct (hLin xs S) t)) := by
  have key : ∀ u : Fin S.length → ℚ, (∀ j, u j = 0 ∨ u j = 1) →
      dotProduct u ((penaltyP xs S).mulVec u)
        = dotProduct u ((gramJ xs S).mulVec u) + dotProduct (hLin xs S) u := by
    intro u hu
    rw [penaltyP, Matrix.add_mulVec, Matrix.dotProduct_add,
      diagonal_quad_eq_linear (hLin xs S) u hu]
  exact ⟨key s hbin, fun t ht => by rw [key s hbin, key t ht]⟩

theorem penaltyP_preserves_qubo_value_witness :
    dotProduct exQs ((penaltyP exXs exS).mulVec exQs)
      = dotProduct exQs ((gramJ exXs exS).mulVec exQs)
        + dotProduct (hLin exXs exS) exQs :=
  (penaltyP_preserves_qubo_value exXs exS exQs
    (by
      intro j
      by_cases h : j.val = 2 ∨ j.val = 6 ∨ j.val = 7
      · right
        simp [exQs, h]
      · left
        simp [exQs, h])).1

/-- `objective = np.diag(W)` from the notebook. -/
def objectiveM {k : ℕ} (W : Fin k → ℚ) : Matrix (Fin k) (Fin k) ℚ :=
  Matrix.diagonal W

/-- The value `sample.T@objective@sample` printed by `check_result`. -/
def objectiveValue {k : ℕ} (W : Fin k → ℚ) (s : Fin k → ℚ) : ℚ :=
  dotProduct s ((objectiveM W).mulVec s)

/-- C6. For a binary sample `s` the objective value computed by
`check_result` with `objective = diag(W)` is the sum of the weights of
exactly the selected sets, those with `s[i] == 1`. -/
theorem objectiveValue_eq_sum_selected_weights {k : ℕ} (W : Fin k → ℚ)
    (s : Fin k → ℚ) (hbin : ∀ i, s i = 0 ∨ s i = 1) :
    objectiveValue W s = ∑ i ∈ Finset.univ.filter (fun i => s i = 1), W i := by
  rw [objectiveValue, objectiveM, Finset.sum_filter]
  unfold Matrix.dotProduct
  refine Finset.sum_congr rfl fun i _ => ?_
  rw [Matrix.mulVec_diagonal]
  rcases hbin i with h0 | h1
  · rw [h0, if_neg (by norm_num)]
    ring
  · rw [h1, if_pos rfl]
    ring

theorem objectiveValue_eq_sum_selected_weights_witness :
    objectiveValue (fun _ : Fin 2 => (3 : ℚ)) (fun i => if i.val = 0 then 1 else 0)
      = ∑ i ∈ Finset.univ.filter
          (fun i : Fin 2 => (if i.val = 0 then (1 : ℚ) else 0) = 1), 3 :=
  objectiveValue_eq_sum_selected_weights (fun _ => 3)
    (fun i => if i.val = 0 then 1 else 0)
    (by
      intro i
      by_cases h : i.val = 0
      · right
        simp [h]
      · left
        simp [h])

/-- Number of rows of a matrix (the first component of `M.shape`). -/
def matRows {m n : ℕ} (_M : Matrix (Fin m) (Fin n) ℚ) : ℕ := m

/-- Number of columns of a matrix (the second component of `M.shape`). -/
def matCols {m n : ℕ} (_M : Matrix (Fin m) (Fin n) ℚ) : ℕ := n

/-- A matrix is square when it has as many rows as columns. -/
def isSquare {m n : ℕ} (M : Matrix (Fin m) (Fin n) ℚ) : Prop :=
  matRows M = matCols M

/-- `Q = objective + alpha * P` from the notebook. -/
def quboQ (xs : List α) (S : List (Finset α)) (W : Fin S.length → ℚ)
    (alpha : ℚ) : Matrix (Fin S.length) (Fin S.length) ℚ :=
  objectiveM W + alpha • penaltyP xs S

/-- `H = np.hstack([C.reshape([n, 1]), J])` from `sample_hamiltonian`:
column `0` is `C` and column `j+1` is column `j` of `J`. -/
def hamiltonianH {n : ℕ} (C : Fin n → ℚ) (J : Matrix (Fin n) (Fin n) ℚ) :
    Matrix (Fin n) (Fin (n + 1)) ℚ :=
  Matrix.of fun i j => Fin.cases (C i) (fun jp => J i jp) j

/-- The linear coefficients `h = [[-1], [0], [0]]` of the first Dirac-3
tutorial example. -/
def exC : Fin 3 → ℚ := fun i => if i.val = 0 then -1 else 0

/-- The quadratic coefficients `J` of the first Dirac-3 tutorial example. -/
def exJ : Matrix (Fin 3) (Fin 3) ℚ := Matrix.of fun i j => if i = j then 0 else 1

theorem hamiltonianH_not_square : ¬ isSquare (hamiltonianH exC exJ) := by
  unfold isSquare matRows matCols
  omega

theorem gramJ_isSymm (xs : List α) (S : List (Finset α)) :
    (gramJ xs S).IsSymm := by
  show (gramJ xs S)ᵀ = gramJ xs S
  rw [gramJ, Matrix.transpose_mul, Matrix.transpose_transpose]

theorem penaltyP_isSymm (xs : List α) (S : List (Finset α)) :
    (penaltyP xs S).IsSymm := by
  show (penaltyP xs S)ᵀ = penaltyP xs S
  rw [penaltyP, Matrix.transpose_add, Matrix.diagonal_transpose, gramJ_isSymm xs S]

/-- C4, amended.  The two QUBO matrices the Set-Partition notebook uploads
are square and symmetric, but the Hamiltonian data built by
`sample_hamiltonian` is `n`-by-`(n+1)` — one extra column for `C` — and
hence never square. -/
theorem uploaded_matrix_shapes (xs : List α) (S : List (Finset α))
    (W : Fin S.length → ℚ) (alpha : ℚ) {n : ℕ} (C : Fin n → ℚ)
    (J : Matrix (Fin n) (Fin n) ℚ) :
    (penaltyP xs S).IsSymm ∧ isSquare (penaltyP xs S) ∧
      (quboQ xs S W alpha).IsSymm ∧ isSquare (quboQ xs S W alpha) ∧
      matRows (hamiltonianH C J) = n ∧ matCols (hamiltonianH C J) = n + 1 := by
  refine ⟨penaltyP_isSymm xs S, rfl, ?_, rfl, rfl, rfl⟩
  show (quboQ xs S W alpha)ᵀ = quboQ xs S W alpha
  rw [quboQ, Matrix.transpose_add, Matrix.transpose_smul, objectiveM,
    Matrix.diagonal_transpose, penaltyP_isSymm xs S]

/-- The job parameters of a `build_job_body` call. -/
structure JobParams where
  sampler_type : String
  nsamples : ℕ
  solution_precision : ℚ
  sum_constraint : ℚ
  relaxation_schedule : ℕ

/-- The Hamiltonian file uploaded by `sample_hamiltonian`:
`{"file_name": ..., "file_config": {"hamiltonian": {"data": H}}}`. -/
structure HamFile (n : ℕ) where
  file_name : String
  data : Matrix (Fin n) (Fin (n + 1)) ℚ

/-- The vendor `QciClient`, abstracted: the three calls `sample_hamiltonian`
makes are opaque functions of exactly the data the code hands them. -/
structure ClientModel (n : ℕ) (FileId Body Resp : Type) where
  upload_file : HamFile n → FileId
  build_job_body : String → FileId → JobParams → List String → Body
  process_job : String → Body → Resp

/-- `sample_hamiltonian` from the Dirac-3 tutorial. -/
def sample_hamiltonian {n : ℕ} {FileId Body Resp : Type}
    (client : ClientModel n FileId Body Resp) (C : Fin n → ℚ)
    (J : Matrix (Fin n) (Fin n) ℚ) (sum_constraint : ℚ) (schedule : ℕ)
    (solution_precision : ℚ) : Resp :=
  let H := hamiltonianH C J
  let ham_file : HamFile n := ⟨"qudit-tutorial-hame", H⟩
  let file_id := client.upload_file ham_file
  let job_tags := ["qudit-tutorial"]
  let job_body := client.build_job_body "sample-hamiltonian" file_id
    ⟨"dirac-3", 1, solution_precision, sum_constraint, schedule⟩ job_tags
  client.process_job "sample-hamiltonian" job_body

/-- C8. `sample_hamiltonian` uploads the `n`-by-`(n+1)` matrix `[C | J]`,
submits a job whose parameters carry the caller arguments through
unchanged with `nsamples` fixed to `1`, and returns the `process_job`
response unmodified. -/
theorem sample_hamiltonian_job_flow {n : ℕ} {FileId Body Resp : Type}
    (client : ClientModel n FileId Body Resp) (C : Fin n → ℚ)
    (J : Matrix (Fin n) (Fin n) ℚ) (sum_constraint : ℚ) (schedule : ℕ)
    (solution_precision : ℚ) :
    sample_hamiltonian client C J sum_constraint schedule solution_precision
        = client.process_job "sample-hamiltonian"
            (client.build_job_body "sample-hamiltonian"
              (client.upload_file ⟨"qudit-tutorial-hame", hamiltonianH C J⟩)
              ⟨"dirac-3", 1, solution_precision, sum_constraint, schedule⟩
              ["qudit-tutorial"]) ∧
      (∀ i : Fin n, hamiltonianH C J i 0 = C i) ∧
      (∀ (i : Fin n) (j : Fin n), hamiltonianH C J i j.succ = J i j) := by
  refine ⟨rfl, fun i => ?_, fun i j => ?_⟩
  · simp [hamiltonianH]
  · simp [hamiltonianH]

/-- The `results` record of a job response: its `file_config` dict as a
list of key/value pairs. -/
structure ResultsRec (V : Type) where
  file_config : List (String × V)

/-- The `job_info` record of a job response: `job_result` is `none` when
the key is absent, `some d` when present with value `d`. -/
structure JobInfo (D : Type) where
  job_result : Option D

/-- A job response.  `results = none` models an absent `results` key,
`results = some none` a `results` key holding `None`, and
`results = some (some r)` a populated record.  Likewise for `job_info`. -/
structure Response (D V : Type) where
  results : Option (Option (ResultsRec V))
  job_info : Option (JobInfo D)

/-- The two ways `get_results` can raise: the explicit
`RuntimeError(f"Execution failed. See details: {details}")` and the
`assert len(results_file_config) == 1, "Unknown results format"`. -/
inductive GRError (D : Type) where
  | runtimeError (details : Option D)
  | assertionError

/-- `get_results` from the Dirac-3 tutorial, with raising modelled as
`Except.error`. -/
def get_results {D V : Type} (response : Response D V) : Except (GRError D) V :=
  match response.results with
  | some (some r) =>
      match r.file_config with
      | [kv] => Except.ok kv.2
      | _ => Except.error GRError.assertionError
  | _ =>
      Except.error (GRError.runtimeError
        (response.job_info.bind fun ji => ji.job_result))

/-- A response whose `results` key is present and non-`None` but whose
`file_config` has two keys. -/
def badResponse : Response Unit ℕ :=
  ⟨some (some ⟨[("a", 1), ("b", 2)]⟩), none⟩

theorem get_results_raises_with_results_present :
    get_results badResponse = Except.error GRError.assertionError ∧
      badResponse.results ≠ none ∧ badResponse.results ≠ some none := by
  refine ⟨rfl, ?_, ?_⟩ <;> simp [badResponse]

/-- C3, amended.  `get_results` raises exactly when `results` is absent or
`None` or the present `file_config` does not have exactly one key; in the
absent/`None` case the `RuntimeError` carries
`response["job_info"]["job_result"]` as details when both keys are present
and `None` otherwise; with exactly one `file_config` key it returns that
single value. -/
theorem get_results_spec {D V : Type} (response : Response D V) :
    ((∃ e, get_results response = Except.error e) ↔
        response.results = none ∨ response.results = some none ∨
          ∃ r, response.results = some (some r) ∧ r.file_config.length ≠ 1) ∧
      ((response.results = none ∨ response.results = some none) →
        get_results response = Except.error (GRError.runtimeError
          (response.job_info.bind fun ji => ji.job_result))) ∧
      (∀ (r : ResultsRec V) (k : String) (v : V),
        response.results = some (some r) → r.file_config = [(k, v)] →
          get_results response = Except.ok v) := by
  obtain ⟨res, ji⟩ := response
  refine ⟨?_, ?_, ?_⟩
  · match res with
    | none => simp [get_results]
    | some none => simp [get_results]
    | some (some r) =>
        match hfc : r.file_config with
        | [kv] =>
            simp only [get_results, hfc]
            constructor
            · rintro ⟨e, he⟩
              cases he
            · rintro (h | h | ⟨r2, hr2, hlen1⟩)
              · cases h
              · cases h
              · obtain rfl : r = r2 := by
                  injection hr2 with h1
                  injection h1
                rw [hfc] at hlen1
                simp at hlen1
        | [] =>
            simp only [get_results, hfc]
            refine ⟨fun _ => Or.inr (Or.inr ⟨r, rfl, by rw [hfc]; simp⟩),
              fun _ => ⟨GRError.assertionError, rfl⟩⟩
        | kv1 :: kv2 :: rest =>
            simp only [get_results, hfc]
            refine ⟨fun _ => Or.inr (Or.inr ⟨r, rfl, by rw [hfc]; simp⟩),
              fun _ => ⟨GRError.assertionError, rfl⟩⟩
  · rintro (h | h) <;> subst h <;> rfl
  · intro r k v hres hfc
    subst hres
    simp [get_results, hfc]

/-- A well-formed response holding the single-key `file_config`
`{"solutions": 7}`. -/
def goodResponse : Response Unit ℕ :=
  ⟨some (some ⟨[("solutions", 7)]⟩), none⟩

theorem get_results_spec_witness : get_results goodResponse = Except.ok 7 :=
  (get_results_spec goodResponse).2.2 ⟨[("solutions", 7)]⟩ "solutions" 7 rfl rfl
